import Mathlib

/-!
Verification of the particle-filter localizer in
`my_localizer/scripts/pf.py` (class `ParticleFilter`).

Python floats are modelled as real numbers; the distance-field query
`OccupancyField.get_closest_obstacle_distance`, which returns NaN for a
point outside the mapped region, is modelled as an external function
returning `Option ℝ` (`none` = NaN/undefined).  The pseudo-random draws
`random_sample()` (uniform in `[0,1)`) are modelled by explicit noise
arguments, so every function is a deterministic function of its inputs
including the random stream.
-/

namespace PF

/-- Particle: a pose hypothesis `(x, y, theta)` with a weight `w`,
mirroring class `Particle` in `pf.py` (constructor defaults
`x=0, y=0, theta=0, w=1`). -/
structure Particle where
  x : ℝ
  y : ℝ
  theta : ℝ
  w : ℝ

instance : Inhabited Particle := ⟨⟨0, 0, 0, 1⟩⟩

/-- The linear-movement threshold `self.d_thresh = 0.1` set in `__init__`. -/
def d_thresh : ℝ := 0.1

/-- The angular-movement threshold `self.a_thresh = math.pi/12` set in `__init__`. -/
noncomputable def a_thresh : ℝ := Real.pi / 12

/-- The odometry noise level `odom_noise = .3` set in `update_particles_with_odom`. -/
def odom_noise : ℝ := 0.3

/-- Expression `random_sample()*odom_noise+(1-odom_noise/2.0)` from
`update_particles_with_odom`, as a function of the uniform draw `u`. -/
noncomputable def noise_scalar (u : ℝ) : ℝ := u * odom_noise + (1 - odom_noise / 2)

/-- Model of `np.arctan2 y x`: the argument of the complex number `x + y·i`
(for real inputs, without signed zeros, `np.arctan2` agrees with the
principal argument, with `arctan2 0 0 = 0`). -/
noncomputable def arctan2 (y x : ℝ) : ℝ := Complex.arg ⟨x, y⟩

/-- Body of `normalize_particles`: sum the weights, then divide each
particle's weight by the sum (`particle.w /= weights_sum`). -/
noncomputable def normalize_particles (cloud : List Particle) : List Particle :=
  let weights_sum := (cloud.map Particle.w).sum
  cloud.map fun particle => { particle with w := particle.w / weights_sum }

/-- Body of `update_robot_pose`: normalize, then accumulate the weighted
mean of `x` and `y` and the distance-weighted circular sums for `theta`,
returning the mean pose `(x, y, theta)`.  The source folds over the cloud
with `mean_particle.x += particle.x * particle.w` etc.; the fold of a sum
is written here as a `List.sum` of the per-particle contributions. -/
noncomputable def update_robot_pose (cloud : List Particle) : ℝ × ℝ × ℝ :=
  let c := normalize_particles cloud
  let mean_x := (c.map fun particle => particle.x * particle.w).sum
  let mean_y := (c.map fun particle => particle.y * particle.w).sum
  let mean_theta_x := (c.map fun particle =>
    Real.sqrt (particle.y ^ 2 + particle.x ^ 2) * Real.cos particle.theta * particle.w).sum
  let mean_theta_y := (c.map fun particle =>
    Real.sqrt (particle.y ^ 2 + particle.x ^ 2) * Real.sin particle.theta * particle.w).sum
  (mean_x, mean_y, arctan2 mean_theta_y mean_theta_x)

lemma sum_map_div (l : List Particle) (s : ℝ) :
    (l.map fun p => p.w / s).sum = (l.map Particle.w).sum / s := by
  induction l with
  | nil => simp
  | cons p t ih => simp [ih, add_div]

lemma normalize_weights_sum (cloud : List Particle) :
    ((normalize_particles cloud).map Particle.w).sum
      = (cloud.map Particle.w).sum / (cloud.map Particle.w).sum := by
  simp only [normalize_particles, List.map_map]
  have : (List.map (Particle.w ∘ fun particle =>
      { particle with w := particle.w / (cloud.map Particle.w).sum }) cloud)
      = cloud.map fun p => p.w / (cloud.map Particle.w).sum := by
    simp [Function.comp]
  rw [this, sum_map_div]

/-- Claim C6: for every particle cloud whose pre-normalization weight sum is
strictly positive (and whose weights are non-negative, per the data-model
invariant), `normalize_particles` divides every particle's weight by that
sum, and afterwards every weight is non-negative and the weights sum
to exactly 1. -/
theorem C6_normalize_correct (cloud : List Particle)
    (hpos : 0 < (cloud.map Particle.w).sum)
    (hnn : ∀ p ∈ cloud, 0 ≤ p.w) :
    normalize_particles cloud
        = cloud.map (fun p => { p with w := p.w / (cloud.map Particle.w).sum }) ∧
      (∀ q ∈ normalize_particles cloud, 0 ≤ q.w) ∧
      ((normalize_particles cloud).map Particle.w).sum = 1 := by
  refine ⟨rfl, ?_, ?_⟩
  · intro q hq
    simp only [normalize_particles, List.mem_map] at hq
    obtain ⟨p, hp, rfl⟩ := hq
    exact div_nonneg (hnn p hp) hpos.le
  · rw [normalize_weights_sum, div_self hpos.ne']

/-- Witness for C6 at a concrete two-particle cloud with weights 1 and 3. -/
theorem C6_normalize_correct_witness :
    (∀ q ∈ normalize_particles [⟨0, 0, 0, 1⟩, ⟨2, 5, 1, 3⟩], 0 ≤ q.w) ∧
      ((normalize_particles [⟨0, 0, 0, 1⟩, ⟨2, 5, 1, 3⟩]).map Particle.w).sum = 1 := by
  have h := C6_normalize_correct [⟨0, 0, 0, 1⟩, ⟨2, 5, 1, 3⟩]
    (by simp; norm_num)
    (by intro p hp; simp at hp; rcases hp with h1 | h1 <;> simp [h1])
  exact ⟨h.2.1, h.2.2⟩

/-- Model of `np.radians theta`: degrees to radians, `theta · π / 180`. -/
noncomputable def radians (theta : ℕ) : ℝ := (theta : ℝ) * Real.pi / 180

/-- Abscissa `particle.x + msg.ranges[theta] * np.cos(particle.theta + rad)`
of the projected endpoint queried in `update_particles_with_laser`. -/
noncomputable def endpoint_x (p : Particle) (ranges : ℕ → ℝ) (theta : ℕ) : ℝ :=
  p.x + ranges theta * Real.cos (p.theta + radians theta)

/-- Ordinate `particle.y + msg.ranges[theta] * np.sin(particle.theta + rad)`
of the projected endpoint queried in `update_particles_with_laser`. -/
noncomputable def endpoint_y (p : Particle) (ranges : ℕ → ℝ) (theta : ℕ) : ℝ :=
  p.y + ranges theta * Real.sin (p.theta + radians theta)

/-- The bearing subsample `range(0,360,10)` iterated over in
`update_particles_with_laser`: every 10 degrees over 360, 36 bearings. -/
def bearings : List ℕ :=
  [0, 10, 20, 30, 40, 50, 60, 70, 80, 90, 100, 110,
   120, 130, 140, 150, 160, 170, 180, 190, 200, 210, 220, 230,
   240, 250, 260, 270, 280, 290, 300, 310, 320, 330, 340, 350]

/-- Inner bearing loop of `update_particles_with_laser` for one particle.
It threads the pair `(particle.w, error)`: on an undefined (NaN) distance
query it executes `particle.w = 0` and `break`, returning the pair
accumulated so far; otherwise it appends `err**5` to `error` and
continues.  `field` models `occupancy_field.get_closest_obstacle_distance`
(`none` = NaN) and `ranges` models `msg.ranges`. -/
noncomputable def bearing_loop (field : ℝ → ℝ → Option ℝ) (ranges : ℕ → ℝ)
    (p : Particle) : List ℕ → ℝ × List ℝ → ℝ × List ℝ
  | [], state => state
  | theta :: rest, (w, error) =>
    match field (endpoint_x p ranges theta) (endpoint_y p ranges theta) with
    | none => (0, error)
    | some err => bearing_loop field ranges p rest (w, error ++ [err ^ 5])

/-- Final weight assigned to one particle by `update_particles_with_laser`:
after the bearing loop, the code unconditionally runs
`if (sum(error) == 0): particle.w = 1.0 else: particle.w = 1.0/sum(error)`,
overwriting whatever the loop wrote into `particle.w` (including the `0`
written on the break path). -/
noncomputable def laser_weight (field : ℝ → ℝ → Option ℝ) (ranges : ℕ → ℝ)
    (p : Particle) : ℝ :=
  let result := bearing_loop field ranges p bearings (p.w, [])
  if result.2.sum = 0 then 1 else 1 / result.2.sum

/-- Body of `update_particles_with_laser`: reassign every particle's weight
to its `laser_weight`. -/
noncomputable def update_particles_with_laser (field : ℝ → ℝ → Option ℝ)
    (ranges : ℕ → ℝ) (cloud : List Particle) : List Particle :=
  cloud.map fun p => { p with w := laser_weight field ranges p }

lemma bearing_loop_all_some (field : ℝ → ℝ → Option ℝ) (ranges : ℕ → ℝ)
    (p : Particle) (dist : ℕ → ℝ) :
    ∀ (L : List ℕ) (w : ℝ) (error : List ℝ),
      (∀ theta ∈ L,
        field (endpoint_x p ranges theta) (endpoint_y p ranges theta)
          = some (dist theta)) →
      bearing_loop field ranges p L (w, error)
        = (w, error ++ L.map fun theta => dist theta ^ 5) := by
  intro L
  induction L with
  | nil => intro w error _; simp [bearing_loop]
  | cons theta rest ih =>
    intro w error h
    have hhd := h theta (by simp)
    have htl : ∀ t ∈ rest,
        field (endpoint_x p ranges t) (endpoint_y p ranges t) = some (dist t) :=
      fun t ht => h t (by simp [ht])
    simp only [bearing_loop, hhd]
    rw [ih (w := w) (error ++ [dist theta ^ 5]) htl]
    simp

/-- Claim C2: for a particle all of whose 36 bearing endpoints are inside
the mapped region (the distance field returns `some (dist theta)` at every
queried endpoint), the resulting weight is `1` when `Σ dist^5` over the 36
bearings is exactly zero, and `1 / Σ dist^5` otherwise. -/
theorem C2_laser_weight_all_defined (field : ℝ → ℝ → Option ℝ)
    (ranges : ℕ → ℝ) (p : Particle) (dist : ℕ → ℝ)
    (h : ∀ theta ∈ bearings,
      field (endpoint_x p ranges theta) (endpoint_y p ranges theta)
        = some (dist theta)) :
    ((bearings.map fun theta => dist theta ^ 5).sum = 0 →
        laser_weight field ranges p = 1) ∧
      ((bearings.map fun theta => dist theta ^ 5).sum ≠ 0 →
        laser_weight field ranges p
          = 1 / (bearings.map fun theta => dist theta ^ 5).sum) := by
  have hloop := bearing_loop_all_some field ranges p dist bearings p.w [] h
  constructor
  · intro hz
    simp [laser_weight, hloop, hz]
  · intro hz
    simp [laser_weight, hloop, hz]

/-- Witness for C2: a distance field constantly `1` gives every particle
weight `1 / 36` (the sum of `1^5` over the 36 bearings). -/
theorem C2_laser_weight_all_defined_witness :
    laser_weight (fun _ _ => some 1) (fun _ => 0) ⟨0, 0, 0, 1⟩ = 1 / 36 := by
  have h := C2_laser_weight_all_defined (fun _ _ => some 1) (fun _ => 0)
    ⟨0, 0, 0, 1⟩ (fun _ => 1) (fun theta _ => rfl)
  have hsum : (bearings.map fun _ : ℕ => (1 : ℝ) ^ 5).sum = 36 := by
    simp [bearings]
    norm_num
  rw [h.2 (by rw [hsum]; norm_num), hsum]

/-- Evaluation of `update_particles_with_laser` on the input refuting
claim C1: a single particle at the origin with a distance field that is
undefined everywhere.  The bearing loop breaks at the very first bearing
after writing `particle.w = 0`, but the fall-through
`if (sum(error) == 0): particle.w = 1.0` then overwrites the weight with
`1.0` (the empty error list sums to zero), so the final weight is `1`,
not the `0` the claim states. -/
theorem C1_undefined_endpoint_final_weight :
    (update_particles_with_laser (fun _ _ => none) (fun _ => 0)
        [⟨0, 0, 0, 1⟩]).map Particle.w = [1] := by
  have hloop : bearing_loop (fun _ _ => none) (fun _ => 0)
      ⟨0, 0, 0, 1⟩ bearings ((1 : ℝ), []) = (0, []) := by
    simp [bearings, bearing_loop]
  simp [update_particles_with_laser, laser_weight, hloop]

lemma bearing_loop_errors_nonneg (field : ℝ → ℝ → Option ℝ) (ranges : ℕ → ℝ)
    (p : Particle) (hf : ∀ x y d, field x y = some d → 0 ≤ d) :
    ∀ (L : List ℕ) (w : ℝ) (error : List ℝ), (∀ e ∈ error, 0 ≤ e) →
      ∀ e ∈ (bearing_loop field ranges p L (w, error)).2, 0 ≤ e := by
  intro L
  induction L with
  | nil => intro w error herr; simpa [bearing_loop] using herr
  | cons theta rest ih =>
    intro w error herr
    simp only [bearing_loop]
    cases hq : field (endpoint_x p ranges theta) (endpoint_y p ranges theta) with
    | none => simpa using herr
    | some err =>
      refine ih w (error ++ [err ^ 5]) ?_
      intro e he
      rcases List.mem_append.mp he with h1 | h1
      · exact herr e h1
      · have : e = err ^ 5 := by simpa using h1
        subst this
        exact pow_nonneg (hf _ _ _ hq) 5

/-- Claim C8: after `update_particles_with_laser` runs, every particle's
weight is strictly positive, provided every defined distance-field value is
non-negative; consequently on a non-empty cloud the weight sum — the
divisor of the subsequent `normalize_particles` call — is strictly
positive. -/
theorem C8_laser_weights_positive (field : ℝ → ℝ → Option ℝ)
    (ranges : ℕ → ℝ) (cloud : List Particle)
    (hf : ∀ x y d, field x y = some d → 0 ≤ d) :
    (∀ q ∈ update_particles_with_laser field ranges cloud, 0 < q.w) ∧
      (cloud ≠ [] →
        0 < ((update_particles_with_laser field ranges cloud).map Particle.w).sum) := by
  have hw : ∀ p : Particle, 0 < laser_weight field ranges p := by
    intro p
    have hnn : ∀ e ∈ (bearing_loop field ranges p bearings (p.w, [])).2, 0 ≤ e :=
      bearing_loop_errors_nonneg field ranges p hf bearings p.w [] (by simp)
    have hsum : 0 ≤ (bearing_loop field ranges p bearings (p.w, [])).2.sum :=
      List.sum_nonneg hnn
    unfold laser_weight
    simp only
    split
    · exact one_pos
    · rename_i hne
      exact div_pos one_pos (lt_of_le_of_ne hsum (Ne.symm hne))
  constructor
  · intro q hq
    simp only [update_particles_with_laser, List.mem_map] at hq
    obtain ⟨p, _, rfl⟩ := hq
    exact hw p
  · intro hne
    apply List.sum_pos
    · intro x hx
      simp only [update_particles_with_laser, List.map_map, List.mem_map] at hx
      obtain ⟨p, _, rfl⟩ := hx
      exact hw p
    · simp [update_particles_with_laser, hne]

/-- Witness for C8: one particle, distance field constantly `1`. -/
theorem C8_laser_weights_positive_witness :
    (∀ q ∈ update_particles_with_laser (fun _ _ => some 1) (fun _ => 0)
        [⟨0, 0, 0, 1⟩], 0 < q.w) ∧
      0 < ((update_particles_with_laser (fun _ _ => some 1) (fun _ => 0)
        [⟨0, 0, 0, 1⟩]).map Particle.w).sum := by
  have h := C8_laser_weights_positive (fun _ _ => some 1) (fun _ => 0)
    [⟨0, 0, 0, 1⟩] (by
      intro x y d hd
      simp only [Option.some.injEq] at hd
      linarith)
  exact ⟨h.1, h.2 (by simp)⟩

/-- Scenario cloud from the spec: two particles of weight `0.5` each at
position `(1, 0)` with headings `0` and `π`. -/
noncomputable def scenario_cloud : List Particle :=
  [⟨1, 0, 0, 0.5⟩, ⟨1, 0, Real.pi, 0.5⟩]

/-- Claim C7: for every normalized particle cloud, the pose estimate has
`x = Σ wᵢxᵢ` and `y = Σ wᵢyᵢ`, and its heading equals
`atan2 (Σ wᵢ rᵢ sin θᵢ) (Σ wᵢ rᵢ cos θᵢ)` with `rᵢ = sqrt (xᵢ² + yᵢ²)` the
distance from the map origin; in particular, for two particles of weight
`0.5` each at `(1, 0)` with headings `0` and `π`, the estimated heading is
not `π / 2`. -/
theorem C7_update_robot_pose_formula :
    (∀ cloud : List Particle, (cloud.map Particle.w).sum = 1 →
      update_robot_pose cloud =
        ((cloud.map fun p => p.w * p.x).sum,
         (cloud.map fun p => p.w * p.y).sum,
         arctan2
           ((cloud.map fun p =>
             p.w * Real.sqrt (p.x ^ 2 + p.y ^ 2) * Real.sin p.theta).sum)
           ((cloud.map fun p =>
             p.w * Real.sqrt (p.x ^ 2 + p.y ^ 2) * Real.cos p.theta).sum))) ∧
    (update_robot_pose scenario_cloud).2.2 ≠ Real.pi / 2 := by
  have general : ∀ cloud : List Particle, (cloud.map Particle.w).sum = 1 →
      update_robot_pose cloud =
        ((cloud.map fun p => p.w * p.x).sum,
         (cloud.map fun p => p.w * p.y).sum,
         arctan2
           ((cloud.map fun p =>
             p.w * Real.sqrt (p.x ^ 2 + p.y ^ 2) * Real.sin p.theta).sum)
           ((cloud.map fun p =>
             p.w * Real.sqrt (p.x ^ 2 + p.y ^ 2) * Real.cos p.theta).sum)) := by
    intro cloud h
    have hid : normalize_particles cloud = cloud := by
      simp only [normalize_particles, h, div_one]
      have : (fun particle : Particle => { particle with w := particle.w }) =
          fun particle : Particle => particle := rfl
      rw [this, List.map_id']
    simp only [update_robot_pose, hid]
    refine Prod.ext ?_ (Prod.ext ?_ ?_)
    · simp only
      exact congrArg List.sum (List.map_congr_left fun p _ => by ring)
    · simp only
      exact congrArg List.sum (List.map_congr_left fun p _ => by ring)
    · simp only
      congr 1
      · exact congrArg List.sum (List.map_congr_left fun p _ => by
          rw [add_comm (p.y ^ 2) (p.x ^ 2)]; ring)
      · exact congrArg List.sum (List.map_congr_left fun p _ => by
          rw [add_comm (p.y ^ 2) (p.x ^ 2)]; ring)
  refine ⟨general, ?_⟩
  have hsum : (scenario_cloud.map Particle.w).sum = 1 := by
    simp [scenario_cloud]; norm_num
  rw [general scenario_cloud hsum]
  have hy : (scenario_cloud.map fun p =>
      p.w * Real.sqrt (p.x ^ 2 + p.y ^ 2) * Real.sin p.theta).sum = 0 := by
    simp [scenario_cloud]
  have hx : (scenario_cloud.map fun p =>
      p.w * Real.sqrt (p.x ^ 2 + p.y ^ 2) * Real.cos p.theta).sum = 0 := by
    norm_num [scenario_cloud]
  simp only [hy, hx]
  have harg : arctan2 0 0 = 0 := by
    have h0 : (⟨0, 0⟩ : ℂ) = 0 := rfl
    simp [arctan2, h0]
  rw [harg]
  intro hcontra
  have hpi := Real.pi_pos
  linarith

/-- Witness for C7: evaluating the pose estimate on the scenario cloud. -/
theorem C7_update_robot_pose_formula_witness :
    (scenario_cloud.map Particle.w).sum = 1 ∧
      update_robot_pose scenario_cloud = (1, 0, arctan2 0 0) := by
  have hsum : (scenario_cloud.map Particle.w).sum = 1 := by
    simp [scenario_cloud]; norm_num
  refine ⟨hsum, ?_⟩
  rw [C7_update_robot_pose_formula.1 scenario_cloud hsum]
  refine Prod.ext ?_ (Prod.ext ?_ ?_)
  · norm_num [scenario_cloud]
  · norm_num [scenario_cloud]
  · simp only
    congr 1 <;> norm_num [scenario_cloud]

/-- Per-particle body of the `for particle in self.particle_cloud` loop in
`update_particles_with_odom`, given the decomposition `(r1, d, r2)` of the
odometry delta and the four uniform draws `u 0 .. u 3` consumed by the four
`random_sample()` calls, in program order: the first heading update uses
`u 0`, the `x` update uses `u 1` and the heading already updated by `r1`,
the `y` update uses `u 2` and that same heading, and the final heading
update uses `u 3`. -/
noncomputable def update_particle_odom (p : Particle) (r1 d r2 : ℝ)
    (u : Fin 4 → ℝ) : Particle :=
  let theta1 := p.theta + r1 * noise_scalar (u 0)
  let x1 := p.x + d * Real.cos theta1 * noise_scalar (u 1)
  let y1 := p.y + d * Real.sin theta1 * noise_scalar (u 2)
  { x := x1, y := y1, theta := theta1 + r2 * noise_scalar (u 3), w := p.w }

/-- Formalisation of the spec's motion-model wording for comparison with
the source: exactly three noise scalars `n 0, n 1, n 2`, applied as rotate
by `r1 · n 0`, translate by `d · n 1` along the updated heading (the same
`n 1` scaling both the `x` and the `y` displacement), rotate by
`r2 · n 2`. -/
noncomputable def update_particle_odom_spec (p : Particle) (r1 d r2 : ℝ)
    (n : Fin 3 → ℝ) : Particle :=
  let theta1 := p.theta + r1 * n 0
  { x := p.x + d * n 1 * Real.cos theta1,
    y := p.y + d * n 1 * Real.sin theta1,
    theta := theta1 + r2 * n 2,
    w := p.w }

/-- Amended motion-model description: four noise scalars, one per
`random_sample()` call, with independent scalars for the `x` and the `y`
displacement. -/
noncomputable def update_particle_odom_amended (p : Particle) (r1 d r2 : ℝ)
    (n : Fin 4 → ℝ) : Particle :=
  let theta1 := p.theta + r1 * n 0
  { x := p.x + d * Real.cos theta1 * n 1,
    y := p.y + d * Real.sin theta1 * n 2,
    theta := theta1 + r2 * n 3,
    w := p.w }

/-- Counterexample to claim C4: at heading `π/4` with `r1 = r2 = 0`,
`d = 1`, and uniform draws `(0, 1/2, 0, 0)`, the code scales the `x`
displacement by `noise_scalar (1/2) = 1` but the `y` displacement by
`noise_scalar 0 = 0.85`, so no assignment of three shared noise scalars
reproduces the code's result: the code does not use one scalar for both
the `x` and the `y` displacement. -/
theorem C4_three_noise_counterexample :
    ¬ ∃ n : Fin 3 → ℝ,
      update_particle_odom_spec ⟨0, 0, Real.pi / 4, 1⟩ 0 1 0 n
        = update_particle_odom ⟨0, 0, Real.pi / 4, 1⟩ 0 1 0 ![0, 1/2, 0, 0] := by
  rintro ⟨n, h⟩
  have hu1 : noise_scalar ((![0, 1/2, 0, 0] : Fin 4 → ℝ) 1) = 1 := by
    have e1 : (![(0 : ℝ), 1/2, 0, 0]) 1 = 1/2 := rfl
    rw [e1, noise_scalar, odom_noise]
    norm_num
  have hu2 : noise_scalar ((![0, 1/2, 0, 0] : Fin 4 → ℝ) 2) = 0.85 := by
    have e2 : (![(0 : ℝ), 1/2, 0, 0]) 2 = 0 := rfl
    rw [e2, noise_scalar, odom_noise]
    norm_num
  simp only [update_particle_odom, update_particle_odom_spec,
    Particle.mk.injEq, zero_mul, add_zero, zero_add, one_mul, mul_one,
    hu1, hu2] at h
  obtain ⟨hx, hy, -, -⟩ := h
  have hs2 : 0 < Real.sqrt 2 := Real.sqrt_pos.mpr (by norm_num)
  have hcos : Real.cos (Real.pi / 4) = Real.sqrt 2 / 2 := Real.cos_pi_div_four
  have hsin : Real.sin (Real.pi / 4) = Real.sqrt 2 / 2 := Real.sin_pi_div_four
  rw [hcos] at hx
  rw [hsin] at hy
  have hn1 : n 1 = 1 := by
    field_simp at hx
    exact hx
  rw [hn1, one_mul] at hy
  nlinarith [hy, hs2]

/-- Claim C4 as amended: each particle is advanced using four independent
noise scalars, one per `random_sample()` draw, each equal to
`u · 0.3 + (1 − 0.3/2)` for a uniform draw `u ∈ [0, 1)` and hence lying in
`[1 − 0.3/2, 1 + 0.3/2)`; the heading is rotated by `r1 · n 0`, the `x`
displacement is `d · cos θ · n 1` and the `y` displacement
`d · sin θ · n 2` along the updated heading `θ` (independent scalars),
then the heading is rotated by `r2 · n 3`. -/
theorem C4_odom_noise_amended (p : Particle) (r1 d r2 : ℝ) (u : Fin 4 → ℝ)
    (hu : ∀ i, 0 ≤ u i ∧ u i < 1) :
    (∀ i, 1 - odom_noise / 2 ≤ noise_scalar (u i) ∧
        noise_scalar (u i) < 1 + odom_noise / 2) ∧
      update_particle_odom p r1 d r2 u
        = update_particle_odom_amended p r1 d r2 (fun i => noise_scalar (u i)) := by
  refine ⟨?_, rfl⟩
  intro i
  obtain ⟨h0, h1⟩ := hu i
  rw [noise_scalar, odom_noise]
  constructor <;> nlinarith

/-- Witness for C4's amended theorem at concrete inputs. -/
theorem C4_odom_noise_amended_witness :
    (∀ i, 1 - odom_noise / 2 ≤ noise_scalar ((fun _ : Fin 4 => (1 : ℝ) / 2) i) ∧
        noise_scalar ((fun _ : Fin 4 => (1 : ℝ) / 2) i) < 1 + odom_noise / 2) ∧
      update_particle_odom ⟨0, 0, 0, 1⟩ 1 2 3 (fun _ => 1 / 2)
        = update_particle_odom_amended ⟨0, 0, 0, 1⟩ 1 2 3
            (fun i => noise_scalar ((fun _ : Fin 4 => (1 : ℝ) / 2) i)) :=
  C4_odom_noise_amended ⟨0, 0, 0, 1⟩ 1 2 3 (fun _ => 1 / 2)
    (fun _ => by norm_num)

/-- Slice of the `ParticleFilter` state read and written by
`update_particles_with_odom`: the particle cloud and
`self.current_odom_xy_theta`, which `__init__` sets to the empty list
(modelled as `none`) and which afterwards holds an `(x, y, theta)`
triple. -/
structure OdomState where
  particle_cloud : List Particle
  current_odom_xy_theta : Option (ℝ × ℝ × ℝ)

/-- Body of `update_particles_with_odom`: when no previous odometry pose
is recorded (`if self.current_odom_xy_theta:` is falsy), record the new
pose and return; otherwise compute `delta`, decompose it into
`(r1, d, r2)`, record the new pose, and advance every particle, the
particle at index `i` consuming the four draws `noise i`. -/
noncomputable def update_particles_with_odom (s : OdomState)
    (new_odom : ℝ × ℝ × ℝ) (noise : ℕ → Fin 4 → ℝ) : OdomState :=
  match s.current_odom_xy_theta with
  | none => { s with current_odom_xy_theta := some new_odom }
  | some old =>
    let delta := (new_odom.1 - old.1, new_odom.2.1 - old.2.1,
      new_odom.2.2 - old.2.2)
    let r1 := arctan2 delta.2.1 delta.1 - old.2.2
    let d := Real.sqrt (delta.1 ^ 2 + delta.2.1 ^ 2)
    let r2 := delta.2.2 - r1
    { particle_cloud :=
        s.particle_cloud.mapIdx fun i p => update_particle_odom p r1 d r2 (noise i),
      current_odom_xy_theta := some new_odom }

/-- Claim C9: when `update_particles_with_odom` is called while no
previous odometry pose is recorded, it records the new odometry pose and
returns with every particle unchanged. -/
theorem C9_odom_first_call_records_and_returns (s : OdomState)
    (new_odom : ℝ × ℝ × ℝ) (noise : ℕ → Fin 4 → ℝ)
    (h : s.current_odom_xy_theta = none) :
    (update_particles_with_odom s new_odom noise).particle_cloud
        = s.particle_cloud ∧
      (update_particles_with_odom s new_odom noise).current_odom_xy_theta
        = some new_odom := by
  rw [update_particles_with_odom, h]
  exact ⟨rfl, rfl⟩

/-- Witness for C9 at a concrete one-particle state. -/
theorem C9_odom_first_call_records_and_returns_witness :
    (update_particles_with_odom ⟨[⟨1, 2, 3, 4⟩], none⟩ (5, 6, 7)
        (fun _ _ => 0)).particle_cloud = [⟨1, 2, 3, 4⟩] ∧
      (update_particles_with_odom ⟨[⟨1, 2, 3, 4⟩], none⟩ (5, 6, 7)
        (fun _ _ => 0)).current_odom_xy_theta = some (5, 6, 7) :=
  C9_odom_first_call_records_and_returns ⟨[⟨1, 2, 3, 4⟩], none⟩ (5, 6, 7)
    (fun _ _ => 0) rfl

/-- Branches of `scan_received` once the transforms are available: the
`if not(self.particle_cloud)` branch initializes the cloud, the `elif`
branch runs the full estimation cycle, and otherwise the method only
publishes the particles (the last transform is re-issued by the
background loop). -/
inductive ScanAction where
  | initialize_cloud
  | full_cycle
  | republish_only
deriving DecidableEq

/-- Branch selection of `scan_received`: `if not(self.particle_cloud)`
initializes; `elif fabs(Δx) > d_thresh or fabs(Δy) > d_thresh or
fabs(Δθ) > a_thresh` runs the full cycle; else only republishes. -/
noncomputable def scan_received_action (particle_cloud : List Particle)
    (new_odom current : ℝ × ℝ × ℝ) : ScanAction :=
  if particle_cloud.isEmpty then ScanAction.initialize_cloud
  else if |new_odom.1 - current.1| > d_thresh ∨
      |new_odom.2.1 - current.2.1| > d_thresh ∨
      |new_odom.2.2 - current.2.2| > a_thresh then ScanAction.full_cycle
  else ScanAction.republish_only

/-- Claim C3: with a non-empty cloud, `scan_received` runs a full
estimation cycle if and only if `|Δx| > 0.1` or `|Δy| > 0.1` or
`|Δθ| > π/12` (strict comparisons) for the component-wise odometry delta;
in particular a delta of `(0.05, 0, 0)` only republishes and a delta of
`(0.15, 0, 0)` triggers the full cycle. -/
theorem C3_update_gate_threshold :
    (∀ (cloud : List Particle) (new_odom current : ℝ × ℝ × ℝ), cloud ≠ [] →
      (scan_received_action cloud new_odom current = ScanAction.full_cycle ↔
        (|new_odom.1 - current.1| > 0.1 ∨ |new_odom.2.1 - current.2.1| > 0.1 ∨
          |new_odom.2.2 - current.2.2| > Real.pi / 12))) ∧
      scan_received_action [⟨0, 0, 0, 1⟩] (0.05, 0, 0) (0, 0, 0)
        = ScanAction.republish_only ∧
      scan_received_action [⟨0, 0, 0, 1⟩] (0.15, 0, 0) (0, 0, 0)
        = ScanAction.full_cycle := by
  have general : ∀ (cloud : List Particle) (new_odom current : ℝ × ℝ × ℝ),
      cloud ≠ [] →
      (scan_received_action cloud new_odom current = ScanAction.full_cycle ↔
        (|new_odom.1 - current.1| > 0.1 ∨ |new_odom.2.1 - current.2.1| > 0.1 ∨
          |new_odom.2.2 - current.2.2| > Real.pi / 12)) := by
    intro cloud new_odom current hne
    have hemp : cloud.isEmpty = false := by
      simpa [List.isEmpty_iff] using hne
    rw [scan_received_action, hemp, d_thresh, a_thresh]
    simp only [Bool.false_eq_true, if_false]
    split
    · rename_i hcond
      simpa using hcond
    · rename_i hcond
      constructor
      · intro hctr
        exact absurd hctr (by simp)
      · intro hctr
        exact absurd hctr hcond
  refine ⟨general, ?_, ?_⟩
  · have hno : ¬ (|(0.05 : ℝ) - 0| > 0.1 ∨ |(0 : ℝ) - 0| > 0.1 ∨
        |(0 : ℝ) - 0| > Real.pi / 12) := by
      have hpi := Real.pi_pos
      push_neg
      refine ⟨?_, ?_, ?_⟩
      · rw [show (0.05 : ℝ) - 0 = 0.05 by norm_num,
          abs_of_pos (by norm_num : (0 : ℝ) < 0.05)]
        norm_num
      · simp only [sub_self, abs_zero]
        norm_num
      · simp only [sub_self, abs_zero]
        positivity
    show (if (|(0.05 : ℝ) - 0| > d_thresh ∨ |(0 : ℝ) - 0| > d_thresh ∨
        |(0 : ℝ) - 0| > a_thresh) then ScanAction.full_cycle
      else ScanAction.republish_only) = ScanAction.republish_only
    rw [d_thresh, a_thresh, if_neg hno]
  · exact (general [⟨0, 0, 0, 1⟩] (0.15, 0, 0) (0, 0, 0) (by simp)).mpr
      (Or.inl (by
        rw [show (0.15 : ℝ) - 0 = 0.15 by norm_num,
          abs_of_pos (by norm_num : (0 : ℝ) < 0.15)]
        norm_num))

/-- Witness for C3: the general gate statement applied at the concrete
delta `(0.15, 0, 0)`. -/
theorem C3_update_gate_threshold_witness :
    scan_received_action [⟨0, 0, 0, 1⟩] (0.15, 0, 0) (0, 0, 0)
      = ScanAction.full_cycle :=
  (C3_update_gate_threshold.1 [⟨0, 0, 0, 1⟩] (0.15, 0, 0) (0, 0, 0)
      (by simp)).mpr
    (Or.inl (by
      rw [show (0.15 : ℝ) - 0 = 0.15 by norm_num,
        abs_of_pos (by norm_num : (0 : ℝ) < 0.15)]
      norm_num))

/-- Model of `np.add.accumulate probs` (the `bins` of `draw_random_sample`):
the running cumulative sums of the list, starting from `acc`. -/
noncomputable def accumulate (acc : ℝ) : List ℝ → List ℝ
  | [] => []
  | p :: ps => (acc + p) :: accumulate (acc + p) ps

/-- Model of `np.digitize u bins` for the monotonically non-decreasing
`bins` produced by `np.add.accumulate`: the index of the half-open bin
`u` falls into, i.e. the number of bin edges that are `≤ u`
(`searchsorted` with side right). -/
noncomputable def digitize (u : ℝ) : List ℝ → ℕ
  | [] => 0
  | b :: bs => if b ≤ u then 1 + digitize u bs else digitize u bs

/-- Body of the static method `draw_random_sample`, with the `n` uniform
draws `random_sample(n)` passed in as the list `us`.  `values` is the
array `0 .. len(choices)-1` and fancy indexing gives `values[i] = i`, so
the sample for draw `u` is `deepcopy(choices[digitize u bins])` — a
by-value copy.  Indexing out of range raises in Python; it is modelled by
`List.getD` with a default that is unreachable whenever
`digitize u bins < choices.length`. -/
noncomputable def draw_random_sample (choices : List Particle)
    (probabilities : List ℝ) (us : List ℝ) : List Particle :=
  let bins := accumulate 0 probabilities
  us.map fun u => choices.getD (digitize u bins) default

/-- Body of `resample_particles`, with the uniform draws passed in as
`us`: normalize the cloud in place, build `choices` (the particles) and
`probabilities` (their weights), and replace the cloud by
`draw_random_sample choices probabilities us` (the source passes
`num_samples = len(self.particle_cloud)`; here `us` carries that many
draws). -/
noncomputable def resample_particles (cloud : List Particle)
    (us : List ℝ) : List Particle :=
  let c := normalize_particles cloud
  draw_random_sample c (c.map Particle.w) us

lemma digitize_le (u : ℝ) : ∀ bins : List ℝ, digitize u bins ≤ bins.length := by
  intro bins
  induction bins with
  | nil => simp [digitize]
  | cons b bs ih =>
    rw [digitize]
    split
    · simpa [Nat.add_comm] using Nat.add_le_add_left ih 1
    · exact Nat.le_succ_of_le ih

lemma digitize_lt_of_mem_gt (u : ℝ) :
    ∀ bins : List ℝ, (∃ b ∈ bins, u < b) → digitize u bins < bins.length := by
  intro bins
  induction bins with
  | nil => rintro ⟨b, hb, -⟩; exact absurd hb (List.not_mem_nil b)
  | cons b bs ih =>
    rintro ⟨c, hc, hcu⟩
    rw [digitize]
    rcases List.mem_cons.mp hc with rfl | hc
    · rw [if_neg (not_le.mpr hcu)]
      exact Nat.lt_succ_of_le (digitize_le u bs)
    · split
      · simpa [Nat.add_comm] using Nat.add_lt_add_left (ih ⟨c, hc, hcu⟩) 1
      · exact Nat.lt_succ_of_lt (ih ⟨c, hc, hcu⟩)

lemma accumulate_length (acc : ℝ) :
    ∀ l : List ℝ, (accumulate acc l).length = l.length := by
  intro l
  induction l generalizing acc with
  | nil => simp [accumulate]
  | cons p ps ih => simp [accumulate, ih]

lemma accumulate_total_mem (acc : ℝ) :
    ∀ l : List ℝ, l ≠ [] → (acc + l.sum) ∈ accumulate acc l := by
  intro l
  induction l generalizing acc with
  | nil => intro h; exact absurd rfl h
  | cons p ps ih =>
    intro _
    rw [accumulate]
    rcases List.eq_nil_or_concat ps with rfl | -
    · simp
    · by_cases hps : ps = []
      · subst hps; simp
      · have := ih (acc + p) hps
        rw [List.sum_cons, ← add_assoc]
        exact List.mem_cons_of_mem _ this

lemma getD_mem_of_lt : ∀ (l : List Particle) (n : ℕ), n < l.length →
    l.getD n default ∈ l := by
  intro l
  induction l with
  | nil => intro n h; exact absurd h (by simp)
  | cons a t ih =>
    intro n h
    cases n with
    | zero => simp [List.getD]
    | succ m =>
      have : t.getD m default ∈ t := ih m (by simpa using Nat.lt_of_succ_lt_succ h)
      simpa [List.getD] using Or.inr this

/-- Claim C5: for every cloud of `N` particles with normalized weights and
every list of `N` uniform draws in `[0, 1)`, resampling returns exactly
`N` particles, and every output particle's `(x, y, theta)` exactly equal
those of some input particle (by-value copies; duplication and dropping
allowed, no interpolation). -/
theorem C5_resample_value_copies (cloud : List Particle) (us : List ℝ)
    (hw : ∀ p ∈ cloud, 0 ≤ p.w) (hsum : (cloud.map Particle.w).sum = 1)
    (hlen : us.length = cloud.length) (hus : ∀ u ∈ us, 0 ≤ u ∧ u < 1) :
    (resample_particles cloud us).length = cloud.length ∧
      ∀ q ∈ resample_particles cloud us, ∃ p ∈ cloud,
        q.x = p.x ∧ q.y = p.y ∧ q.theta = p.theta := by
  have hclen : (normalize_particles cloud).length = cloud.length := by
    simp [normalize_particles]
  have hcsum : ((normalize_particles cloud).map Particle.w).sum = 1 := by
    rw [normalize_weights_sum, hsum, div_one]
  constructor
  · simp [resample_particles, draw_random_sample, hlen]
  · intro q hq
    simp only [resample_particles, draw_random_sample, List.mem_map] at hq
    obtain ⟨u, hu, rfl⟩ := hq
    have hne : cloud ≠ [] := by
      intro hctr
      subst hctr
      rw [List.length_nil, List.length_eq_zero] at hlen
      subst hlen
      exact absurd hu (List.not_mem_nil u)
    have hmapne : (normalize_particles cloud).map Particle.w ≠ [] := by
      simp [normalize_particles, hne]
    have hbin : (1 : ℝ) ∈ accumulate 0 ((normalize_particles cloud).map Particle.w) := by
      have := accumulate_total_mem 0 ((normalize_particles cloud).map Particle.w) hmapne
      rwa [hcsum, zero_add] at this
    have hidx : digitize u (accumulate 0 ((normalize_particles cloud).map Particle.w))
        < (normalize_particles cloud).length := by
      have hlt := digitize_lt_of_mem_gt u
        (accumulate 0 ((normalize_particles cloud).map Particle.w))
        ⟨1, hbin, (hus u hu).2⟩
      have hblen : (accumulate 0 ((normalize_particles cloud).map Particle.w)).length
          = (normalize_particles cloud).length := by
        rw [accumulate_length, List.length_map]
      rwa [hblen] at hlt
    have hmem := getD_mem_of_lt (normalize_particles cloud) _ hidx
    have hfields : ∀ q ∈ normalize_particles cloud, ∃ p ∈ cloud,
        q.x = p.x ∧ q.y = p.y ∧ q.theta = p.theta := by
      intro q hq
      simp only [normalize_particles, List.mem_map] at hq
      obtain ⟨p, hp, rfl⟩ := hq
      exact ⟨p, hp, rfl, rfl, rfl⟩
    exact hfields _ hmem

/-- Witness for C5 at a concrete two-particle cloud and two draws. -/
theorem C5_resample_value_copies_witness :
    (resample_particles [⟨0, 0, 0, 1/2⟩, ⟨1, 2, 3, 1/2⟩] [1/4, 3/4]).length = 2 ∧
      ∀ q ∈ resample_particles [⟨0, 0, 0, 1/2⟩, ⟨1, 2, 3, 1/2⟩] [1/4, 3/4],
        ∃ p ∈ ([⟨0, 0, 0, 1/2⟩, ⟨1, 2, 3, 1/2⟩] : List Particle),
          q.x = p.x ∧ q.y = p.y ∧ q.theta = p.theta := by
  have h := C5_resample_value_copies [⟨0, 0, 0, 1/2⟩, ⟨1, 2, 3, 1/2⟩] [1/4, 3/4]
    (by intro p hp; simp at hp; rcases hp with h1 | h1 <;> rw [h1] <;> norm_num)
    (by simp; norm_num)
    rfl
    (by intro u hu; simp at hu; rcases hu with rfl | rfl <;> norm_num)
  simpa using h

/-- Events affecting the map→odom offset attributes `self.translation` /
`self.rotation` of `ParticleFilter`, abstracted over the value type `T` of
the externally computed `(translation, rotation)` pair: `fix_transform t`
is a call to `fix_map_to_odom_transform` whose final line stores `t` into
the two attributes, and `tick` is one iteration of the main loop, which
calls `broadcast_last_transform`. -/
inductive PFEvent (T : Type) where
  | fix_transform (t : T)
  | tick

/-- Body of `broadcast_last_transform`, as the list of transforms it sends:
`if not(hasattr(self,'translation') and hasattr(self,'rotation')): return`
sends nothing (the unset-attributes state is modelled as `none`); otherwise
it sends exactly the stored pair. -/
def broadcast_last_transform {T : Type} (offset : Option T) : List T :=
  match offset with
  | none => []
  | some t => [t]

/-- One event of the transform state machine: its updated attribute state
and the transforms broadcast during the event. -/
def transform_step {T : Type} (offset : Option T) (e : PFEvent T) :
    Option T × List T :=
  match e with
  | PFEvent.fix_transform t => (some t, [])
  | PFEvent.tick => (offset, broadcast_last_transform offset)

/-- Run of the transform state machine over a list of events, collecting
every transform broadcast along the way. -/
def transform_run {T : Type} (offset : Option T) :
    List (PFEvent T) → Option T × List T
  | [] => (offset, [])
  | e :: es =>
    let step := transform_step offset e
    let rest := transform_run step.1 es
    (rest.1, step.2 ++ rest.2)

lemma transform_run_broadcast_src {T : Type} :
    ∀ (es : List (PFEvent T)) (s : Option T) (t : T),
      t ∈ (transform_run s es).2 →
      s = some t ∨ PFEvent.fix_transform t ∈ es := by
  intro es
  induction es with
  | nil => intro s t h; exact absurd h (List.not_mem_nil t)
  | cons e es ih =>
    intro s t h
    cases e with
    | fix_transform v =>
      simp only [transform_run, transform_step, List.nil_append] at h
      rcases ih (some v) t h with h1 | h1
      · have : v = t := by injection h1
        subst this
        exact Or.inr (by simp)
      · exact Or.inr (List.mem_cons_of_mem _ h1)
    | tick =>
      simp only [transform_run, transform_step] at h
      rcases List.mem_append.mp h with h1 | h1
      · left
        cases s with
        | none => exact absurd h1 (List.not_mem_nil t)
        | some v =>
          have : t = v := by simpa [broadcast_last_transform] using h1
          rw [this]
      · rcases ih s t h1 with h2 | h2
        · exact Or.inl h2
        · exact Or.inr (List.mem_cons_of_mem _ h2)

/-- Claim C10: starting from the freshly constructed filter (the transform
attributes unset), if no call to `fix_map_to_odom_transform` has occurred,
every invocation of `broadcast_last_transform` broadcasts nothing (and
raises nothing — the run is total); and every transform ever broadcast was
previously stored by a `fix_map_to_odom_transform` call. -/
theorem C10_broadcast_only_after_fix (T : Type) (events : List (PFEvent T)) :
    ((∀ t : T, PFEvent.fix_transform t ∉ events) →
        (transform_run (none : Option T) events).2 = []) ∧
      ∀ t ∈ (transform_run (none : Option T) events).2,
        PFEvent.fix_transform t ∈ events := by
  constructor
  · intro hnofix
    induction events with
    | nil => rfl
    | cons e es ih =>
      cases e with
      | fix_transform v => exact absurd (by simp) (hnofix v)
      | tick =>
        have hes : ∀ t : T, PFEvent.fix_transform t ∉ es := by
          intro t ht
          exact hnofix t (List.mem_cons_of_mem _ ht)
        simp only [transform_run, transform_step, broadcast_last_transform,
          List.nil_append]
        exact ih hes
  · intro t ht
    rcases transform_run_broadcast_src events none t ht with h1 | h1
    · exact absurd h1 (by simp)
    · exact h1

/-- Witness for C10: two ticks with no fix broadcast nothing. -/
theorem C10_broadcast_only_after_fix_witness :
    (transform_run (none : Option ℕ)
      [PFEvent.tick, PFEvent.tick]).2 = [] :=
  (C10_broadcast_only_after_fix ℕ [PFEvent.tick, PFEvent.tick]).1
    (by intro t ht; simp at ht)

end PF
